import Mathlib

/-!
Formal model of the sphere-tracing renderer (lol.cpp).

The numeric pipeline of the renderer is embedded shallowly over the real
numbers, the usual idealisation of the float arithmetic in the source:
vector algebra, the hash / value-noise / fractal-brownian-motion stack, the
signed distance field of the displaced sphere, the 128-step sphere-tracing
loop (as a fuel-indexed recursion), the per-pixel frame renderer and the
8-bit pixel encoder (both as row-major lists, matching the row-major index
arithmetic of the source).
-/

namespace SDF

/-- Three-component real vector, modelling the Vec3f struct. -/
@[ext]
structure Vec3f where
  x : ℝ
  y : ℝ
  z : ℝ

noncomputable section

/-- Constructor, modelling make_vec3f. -/
def make_vec3f (x y z : ℝ) : Vec3f := ⟨x, y, z⟩

/-- Dot product, modelling vec3f_dot. -/
def vec3f_dot (a b : Vec3f) : ℝ := a.x * b.x + a.y * b.y + a.z * b.z

/-- Componentwise addition, modelling vec3f_add. -/
def vec3f_add (a b : Vec3f) : Vec3f := ⟨a.x + b.x, a.y + b.y, a.z + b.z⟩

/-- Componentwise subtraction, modelling vec3f_sub. -/
def vec3f_sub (a b : Vec3f) : Vec3f := ⟨a.x - b.x, a.y - b.y, a.z - b.z⟩

/-- Scalar multiple, modelling vec3f_scale. -/
def vec3f_scale (v : Vec3f) (s : ℝ) : Vec3f := ⟨v.x * s, v.y * s, v.z * s⟩

/-- Euclidean norm, modelling vec3f_norm. -/
def vec3f_norm (v : Vec3f) : ℝ := Real.sqrt (v.x * v.x + v.y * v.y + v.z * v.z)

/-- Zero-safe normalisation, modelling vec3f_normalize: the source returns
the zero vector when the norm is not positive. -/
def vec3f_normalize (v : Vec3f) : Vec3f :=
  if vec3f_norm v > 0 then
    make_vec3f (v.x / vec3f_norm v) (v.y / vec3f_norm v) (v.z / vec3f_norm v)
  else make_vec3f 0 0 0

/-- The process-wide constant sphere_radius = 1.5. -/
def sphere_radius : ℝ := 1.5

/-- The process-wide constant noise_amplitude = 1.0. -/
def noise_amplitude : ℝ := 1.0

/-- Clamped linear interpolation, modelling the lerp template at scalar
type: the parameter t is clamped to the unit interval before blending. -/
def lerp (v0 v1 t : ℝ) : ℝ := v0 + (v1 - v0) * max 0 (min 1 t)

/-- Scalar hash, modelling hash: the fractional part of
sin(n) * 43758.5453. -/
def hash (n : ℝ) : ℝ :=
  Real.sin n * 43758.5453 - (⌊Real.sin n * 43758.5453⌋ : ℝ)

/-- Value noise over the unit lattice, modelling noise: the local offset f
is scaled on all three axes by the single shared weight
dot(f, (3,3,3) - 2 f), and hash values at the 8 corner offsets of the
lattice index n = dot(floor x, (1,57,113)) are combined by nested lerp. -/
def noise (x : Vec3f) : ℝ :=
  let p : Vec3f := ⟨(⌊x.x⌋ : ℝ), (⌊x.y⌋ : ℝ), (⌊x.z⌋ : ℝ)⟩
  let f0 : Vec3f := ⟨x.x - p.x, x.y - p.y, x.z - p.z⟩
  let f : Vec3f := vec3f_scale f0 (vec3f_dot f0 (vec3f_sub ⟨3, 3, 3⟩ (vec3f_scale f0 2)))
  let n : ℝ := vec3f_dot p ⟨1, 57, 113⟩
  lerp
    (lerp (lerp (hash (n + 0)) (hash (n + 1)) f.x)
          (lerp (hash (n + 57)) (hash (n + 58)) f.x) f.y)
    (lerp (lerp (hash (n + 113)) (hash (n + 114)) f.x)
          (lerp (hash (n + 170)) (hash (n + 171)) f.x) f.y)
    f.z

/-- Fixed rotation, modelling rotate. -/
def rotate (v : Vec3f) : Vec3f :=
  ⟨vec3f_dot ⟨0, 0.80, 0.60⟩ v,
   vec3f_dot ⟨-0.80, 0.36, -0.48⟩ v,
   vec3f_dot ⟨-0.60, -0.48, 0.64⟩ v⟩

/-- Four-octave fractal noise, modelling fractal_brownian_motion. -/
def fractal_brownian_motion (x : Vec3f) : ℝ :=
  let p1 := rotate x
  let f1 : ℝ := 0.5000 * noise p1
  let p2 := vec3f_scale p1 2.32
  let f2 : ℝ := f1 + 0.2500 * noise p2
  let p3 := vec3f_scale p2 3.03
  let f3 : ℝ := f2 + 0.1250 * noise p3
  let p4 := vec3f_scale p3 2.61
  let f4 : ℝ := f3 + 0.0625 * noise p4
  f4 / 0.9375

/-- Signed distance to the displaced sphere, modelling signed_distance. -/
def signed_distance (p : Vec3f) : ℝ :=
  vec3f_norm p -
    (sphere_radius + -fractal_brownian_motion (vec3f_scale p 3.4) * noise_amplitude)

/-- Forward-difference surface normal, modelling distance_field_normal. -/
def distance_field_normal (pos : Vec3f) : Vec3f :=
  let eps : ℝ := 0.1
  let d := signed_distance pos
  let nx := signed_distance (vec3f_add pos ⟨eps, 0, 0⟩) - d
  let ny := signed_distance (vec3f_add pos ⟨0, eps, 0⟩) - d
  let nz := signed_distance (vec3f_add pos ⟨0, 0, eps⟩) - d
  vec3f_normalize ⟨nx, ny, nz⟩

/-- One marching step of the trace loop: advance along dir by
max(d * 0.1, 0.01) where d is the field value at the current position. -/
def trace_step (dir pos : Vec3f) : Vec3f :=
  vec3f_add pos (vec3f_scale dir (max (signed_distance pos * 0.1) 0.01))

/-- The body of the sphere_trace loop, with the remaining iteration budget
as explicit fuel: return the current position as soon as the field value
is strictly negative, otherwise advance and recurse. -/
def sphere_trace_loop (dir : Vec3f) : ℕ → Vec3f → Option Vec3f
  | 0, _ => none
  | fuel + 1, pos =>
      if signed_distance pos < 0 then some pos
      else sphere_trace_loop dir fuel (trace_step dir pos)

/-- Sphere tracing with a budget of 128 steps, modelling sphere_trace. -/
def sphere_trace (orig dir : Vec3f) : Option Vec3f :=
  sphere_trace_loop dir 128 orig

/-- Iterated marching positions from a start position (position after k
non-returning steps); used to characterise the trace loop. -/
def trace_pos (dir : Vec3f) : ℕ → Vec3f → Vec3f
  | 0, pos => pos
  | k + 1, pos => trace_pos dir k (trace_step dir pos)

/-- Per-pixel frame rendering, modelling render_framebuffer, as the
row-major list of pixel colors (index i + j * width, matching the source
write framebuffer[i + j * width]); the parallel-for of the source writes
each cell exactly once, so the row-major list is its deterministic
content. -/
def render_framebuffer (width height : ℤ) (fov : ℝ) : List Vec3f :=
  (List.range height.toNat).flatMap (fun j =>
    (List.range width.toNat).map (fun i =>
      let dir_x : ℝ := ((i : ℝ) + 0.5) - (width : ℝ) / 2
      let dir_y : ℝ := -((j : ℝ) + 0.5) + (height : ℝ) / 2
      let dir_z : ℝ := -(height : ℝ) / (2 * Real.tan (fov / 2))
      let dir := vec3f_normalize ⟨dir_x, dir_y, dir_z⟩
      match sphere_trace (make_vec3f 0 0 3) dir with
      | some hit =>
          let light_dir := vec3f_normalize (vec3f_sub ⟨0, 10, 10⟩ hit)
          let light_intensity := max 0.4 (vec3f_dot light_dir (distance_field_normal hit))
          vec3f_scale ⟨1, 1, 1⟩ light_intensity
      | none => ⟨0.3, 0.9, 0.2⟩))

/-- One 8-bit channel of the pixel encoder: scale by 255, clamp to
[0, 255], truncate to an integer (the static_cast<uint8_t> of the source;
the clamped value is nonnegative, so truncation toward zero is the
floor). -/
def toByte (r : ℝ) : ℕ := (⌊max 0 (min 255 (r * 255))⌋).toNat

/-- Pixel encoding, modelling convert_framebuffer_to_pixels: for row j and
column i, read framebuffer[i + j * width] and emit the three bytes R, G, B
at positions (j * width + i) * 3 + {0,1,2} in row-major order. -/
def convert_framebuffer_to_pixels (framebuffer : List Vec3f) (width height : ℤ) : List ℕ :=
  (List.range height.toNat).flatMap (fun j =>
    (List.range width.toNat).flatMap (fun i =>
      let color := framebuffer.getD (i + j * width.toNat) (make_vec3f 0 0 0)
      [toByte color.x, toByte color.y, toByte color.z]))

/-- The render boundary of the core: the composition of render_framebuffer
and convert_framebuffer_to_pixels as in main. -/
def render (width height : ℤ) (fov : ℝ) : List ℕ :=
  convert_framebuffer_to_pixels (render_framebuffer width height fov) width height

/-- Definition following the words of the spec for the value-noise
function: p = floor(x), f = x - p, a single shared scalar weight
w = dot(f, (3,3,3) - 2 f) scaling all three axes of f (not a per-axis
smoothstep), lattice index n = dot(p, (1,57,113)), and the nested-lerp
trilinear interpolation of hash(n + c) at the 8 corner offsets
c in 0, 1, 57, 58, 113, 114, 170, 171, with lerp clamping its parameter
to the unit interval. To be compared against the source definition
noise. -/
def noise_spec (x : Vec3f) : ℝ :=
  let p : Vec3f := ⟨(⌊x.x⌋ : ℝ), (⌊x.y⌋ : ℝ), (⌊x.z⌋ : ℝ)⟩
  let f : Vec3f := ⟨x.x - p.x, x.y - p.y, x.z - p.z⟩
  let w : ℝ := vec3f_dot f (vec3f_sub ⟨3, 3, 3⟩ (vec3f_scale f 2))
  let g : Vec3f := ⟨f.x * w, f.y * w, f.z * w⟩
  let n : ℝ := vec3f_dot p ⟨1, 57, 113⟩
  lerp
    (lerp (lerp (hash (n + 0)) (hash (n + 1)) g.x)
          (lerp (hash (n + 57)) (hash (n + 58)) g.x) g.y)
    (lerp (lerp (hash (n + 113)) (hash (n + 114)) g.x)
          (lerp (hash (n + 170)) (hash (n + 171)) g.x) g.y)
    g.z

/-- Definition following the words of the spec for the pixel encoder: for
each framebuffer entry independently, scale each channel by 255, clamp to
[0,255], truncate to an 8-bit integer, and write the three bytes R, G, B
consecutively in row-major order. To be compared against the source
definition convert_framebuffer_to_pixels. -/
def pixels_spec (framebuffer : List Vec3f) : List ℕ :=
  framebuffer.flatMap (fun color => [toByte color.x, toByte color.y, toByte color.z])

end

/-! Section: Range of the noise stack -/

lemma hash_mem (n : ℝ) : 0 ≤ hash n ∧ hash n < 1 := by
  have h : hash n = Int.fract (Real.sin n * 43758.5453) := rfl
  rw [h]
  exact ⟨Int.fract_nonneg _, Int.fract_lt_one _⟩

lemma lerp_mem {v0 v1 : ℝ} (t : ℝ) (h0 : 0 ≤ v0 ∧ v0 < 1) (h1 : 0 ≤ v1 ∧ v1 < 1) :
    0 ≤ lerp v0 v1 t ∧ lerp v0 v1 t < 1 := by
  unfold lerp
  set s := max 0 (min 1 t) with hs
  have hs0 : 0 ≤ s := le_max_left _ _
  have hs1 : s ≤ 1 := max_le zero_le_one (min_le_left _ _)
  have he : v0 + (v1 - v0) * s = v0 * (1 - s) + v1 * s := by ring
  rw [he]
  constructor
  · have ha := mul_nonneg h0.1 (by linarith : (0:ℝ) ≤ 1 - s)
    have hb := mul_nonneg h1.1 hs0
    linarith
  · rcases eq_or_lt_of_le hs1 with h1s | h1s
    · rw [h1s]
      simpa using h1.2
    · have h2 : v0 * (1 - s) < 1 * (1 - s) :=
        mul_lt_mul_of_pos_right h0.2 (by linarith)
      have h3 : v1 * s ≤ 1 * s := mul_le_mul_of_nonneg_right (le_of_lt h1.2) hs0
      linarith

lemma noise_mem (x : Vec3f) : 0 ≤ noise x ∧ noise x < 1 := by
  unfold noise
  exact lerp_mem _
    (lerp_mem _ (lerp_mem _ (hash_mem _) (hash_mem _))
               (lerp_mem _ (hash_mem _) (hash_mem _)))
    (lerp_mem _ (lerp_mem _ (hash_mem _) (hash_mem _))
               (lerp_mem _ (hash_mem _) (hash_mem _)))

lemma fbm_mem (x : Vec3f) :
    0 ≤ fractal_brownian_motion x ∧ fractal_brownian_motion x < 1 := by
  unfold fractal_brownian_motion
  have h1 := noise_mem (rotate x)
  have h2 := noise_mem (vec3f_scale (rotate x) 2.32)
  have h3 := noise_mem (vec3f_scale (vec3f_scale (rotate x) 2.32) 3.03)
  have h4 := noise_mem (vec3f_scale (vec3f_scale (vec3f_scale (rotate x) 2.32) 3.03) 2.61)
  constructor
  · apply div_nonneg _ (by norm_num)
    linarith [h1.1, h2.1, h3.1, h4.1]
  · rw [div_lt_one (by norm_num)]
    linarith [h1.2, h2.2, h3.2, h4.2]

/-! Section: Field value at the origin -/

lemma hash_zero : hash 0 = 0 := by
  unfold hash
  simp

lemma lerp_t_zero (v0 v1 : ℝ) : lerp v0 v1 0 = v0 := by
  unfold lerp
  rw [min_eq_right zero_le_one, max_self]
  ring

lemma noise_zero : noise (make_vec3f 0 0 0) = 0 := by
  simp [noise, make_vec3f, vec3f_scale, vec3f_dot, vec3f_sub, lerp_t_zero, hash_zero]

lemma scale_zero_vec (c : ℝ) : vec3f_scale (make_vec3f 0 0 0) c = make_vec3f 0 0 0 := by
  simp [vec3f_scale, make_vec3f]

lemma rotate_zero : rotate (make_vec3f 0 0 0) = make_vec3f 0 0 0 := by
  simp [rotate, vec3f_dot, make_vec3f]

lemma fbm_zero : fractal_brownian_motion (make_vec3f 0 0 0) = 0 := by
  simp only [fractal_brownian_motion, rotate_zero, scale_zero_vec, noise_zero]
  norm_num

lemma signed_distance_origin_eq : signed_distance (make_vec3f 0 0 0) = -1.5 := by
  unfold signed_distance
  rw [scale_zero_vec, fbm_zero]
  simp [vec3f_norm, make_vec3f, sphere_radius, noise_amplitude]

/-- C3: signed_distance at the origin (0,0,0) is strictly negative for the
fixed sphere radius 1.5 and noise amplitude 1.0 (in fact it equals -1.5:
the fractal noise vanishes at the origin). -/
theorem signed_distance_origin_neg : signed_distance (make_vec3f 0 0 0) < 0 := by
  rw [signed_distance_origin_eq]
  norm_num

/-- C9: hash always lies in [0,1); consequently noise lies in [0,1],
fractal_brownian_motion lies in [0,1], and the displacement
-fbm(p x 3.4) * amplitude lies in [-1,0]. -/
theorem noise_pipeline_bounds :
    (∀ n : ℝ, 0 ≤ hash n ∧ hash n < 1) ∧
    (∀ x : Vec3f, 0 ≤ noise x ∧ noise x ≤ 1) ∧
    (∀ x : Vec3f, 0 ≤ fractal_brownian_motion x ∧ fractal_brownian_motion x ≤ 1) ∧
    (∀ p : Vec3f,
      -1 ≤ -fractal_brownian_motion (vec3f_scale p 3.4) * noise_amplitude ∧
      -fractal_brownian_motion (vec3f_scale p 3.4) * noise_amplitude ≤ 0) := by
  refine ⟨hash_mem, fun x => ⟨(noise_mem x).1, le_of_lt (noise_mem x).2⟩,
    fun x => ⟨(fbm_mem x).1, le_of_lt (fbm_mem x).2⟩, fun p => ?_⟩
  have h := fbm_mem (vec3f_scale p 3.4)
  unfold noise_amplitude
  constructor <;> nlinarith [h.1, h.2]

/-! Section: Normalisation -/

lemma vec3f_norm_mk (a b c : ℝ) :
    vec3f_norm (make_vec3f a b c) = Real.sqrt (a * a + b * b + c * c) := rfl

lemma normalize_of_norm_one {u : Vec3f} (h : vec3f_norm u = 1) :
    vec3f_normalize u = u := by
  unfold vec3f_normalize
  rw [h, if_pos one_pos]
  simp [make_vec3f]

lemma normalize_zero_vec : vec3f_normalize (make_vec3f 0 0 0) = make_vec3f 0 0 0 := by
  unfold vec3f_normalize vec3f_norm make_vec3f
  simp

/-- C8: normalize is idempotent (normalize of normalize equals normalize),
and in particular normalize of the zero vector is the zero vector; being a
total function of the embedding, it never signals an error. -/
theorem normalize_idempotent :
    (∀ v : Vec3f, vec3f_normalize (vec3f_normalize v) = vec3f_normalize v) ∧
    vec3f_normalize (make_vec3f 0 0 0) = make_vec3f 0 0 0 := by
  refine ⟨fun v => ?_, normalize_zero_vec⟩
  by_cases h : vec3f_norm v > 0
  · have hs0 : 0 ≤ v.x * v.x + v.y * v.y + v.z * v.z :=
      add_nonneg (add_nonneg (mul_self_nonneg _) (mul_self_nonneg _)) (mul_self_nonneg _)
    have hn2 : vec3f_norm v * vec3f_norm v = v.x * v.x + v.y * v.y + v.z * v.z :=
      Real.mul_self_sqrt hs0
    have hspos : 0 < v.x * v.x + v.y * v.y + v.z * v.z := by
      rw [← hn2]; exact mul_pos h h
    have hunit : vec3f_norm (vec3f_normalize v) = 1 := by
      unfold vec3f_normalize
      rw [if_pos h, vec3f_norm_mk]
      have he : v.x / vec3f_norm v * (v.x / vec3f_norm v)
          + v.y / vec3f_norm v * (v.y / vec3f_norm v)
          + v.z / vec3f_norm v * (v.z / vec3f_norm v)
          = (v.x * v.x + v.y * v.y + v.z * v.z) / (vec3f_norm v * vec3f_norm v) := by
        field_simp
      rw [he, hn2, div_self (ne_of_gt hspos), Real.sqrt_one]
    exact normalize_of_norm_one hunit
  · have hv : vec3f_normalize v = make_vec3f 0 0 0 := by
      unfold vec3f_normalize
      rw [if_neg h]
    rw [hv, normalize_zero_vec]

/-! Section: The trace loop -/

lemma sphere_trace_loop_succ (dir pos : Vec3f) (fuel : ℕ) :
    sphere_trace_loop dir (fuel + 1) pos =
      if signed_distance pos < 0 then some pos
      else sphere_trace_loop dir fuel (trace_step dir pos) := rfl

lemma sphere_trace_loop_ray (dir : Vec3f) :
    ∀ (fuel : ℕ) (pos p : Vec3f), sphere_trace_loop dir fuel pos = some p →
      ∃ t : ℝ, 0 ≤ t ∧ p = vec3f_add pos (vec3f_scale dir t) ∧
        signed_distance p < 0 := by
  intro fuel
  induction fuel with
  | zero => intro pos p h; simp [sphere_trace_loop] at h
  | succ k ih =>
      intro pos p h
      rw [sphere_trace_loop_succ] at h
      by_cases hd : signed_distance pos < 0
      · rw [if_pos hd] at h
        have hpp := Option.some.inj h
        subst hpp
        refine ⟨0, le_refl 0, ?_, hd⟩
        ext <;> simp [vec3f_add, vec3f_scale]
      · rw [if_neg hd] at h
        obtain ⟨t, ht0, hp, hneg⟩ := ih (trace_step dir pos) p h
        refine ⟨max (signed_distance pos * 0.1) 0.01 + t, ?_, ?_, hneg⟩
        · have h1 : (0.01 : ℝ) ≤ max (signed_distance pos * 0.1) 0.01 := le_max_right _ _
          linarith
        · rw [hp]
          unfold trace_step
          ext <;> simp [vec3f_add, vec3f_scale] <;> ring

lemma trace_pos_zero (dir pos : Vec3f) : trace_pos dir 0 pos = pos := rfl

lemma trace_pos_succ (dir pos : Vec3f) (k : ℕ) :
    trace_pos dir (k + 1) pos = trace_pos dir k (trace_step dir pos) := rfl

/-- The trace loop returns a hit exactly when the field value becomes
strictly negative at one of the marching positions within the fuel budget:
the source tests d < 0, so a marching position with field value exactly
zero does not terminate the loop. -/
lemma sphere_trace_loop_isSome_iff (dir : Vec3f) :
    ∀ (fuel : ℕ) (pos : Vec3f),
      (sphere_trace_loop dir fuel pos).isSome = true ↔
        ∃ k, k < fuel ∧ signed_distance (trace_pos dir k pos) < 0 := by
  intro fuel
  induction fuel with
  | zero =>
      intro pos
      simp [sphere_trace_loop]
  | succ n ih =>
      intro pos
      rw [sphere_trace_loop_succ]
      by_cases hd : signed_distance pos < 0
      · rw [if_pos hd]
        simp only [Option.isSome_some, true_iff]
        exact ⟨0, by omega, by rwa [trace_pos_zero]⟩
      · rw [if_neg hd]
        rw [ih (trace_step dir pos)]
        constructor
        · rintro ⟨k, hk, hneg⟩
          exact ⟨k + 1, by omega, by rwa [trace_pos_succ]⟩
        · rintro ⟨k, hk, hneg⟩
          rcases k with _ | k
          · exact absurd (by rwa [trace_pos_zero] at hneg) hd
          · exact ⟨k, by omega, by rwa [trace_pos_succ] at hneg⟩

/-- Hit characterisation of sphere_trace with its 128-step budget, with
the strict test d < 0 of the source. -/
lemma sphere_trace_isSome_iff (orig dir : Vec3f) :
    (sphere_trace orig dir).isSome = true ↔
      ∃ k, k < 128 ∧ signed_distance (trace_pos dir k orig) < 0 :=
  sphere_trace_loop_isSome_iff dir 128 orig

/-- Marching along (0,0,1) from any (0,0,z) with z at least 3 never hits:
the field value stays at least 1.5 there, so every step only moves the
position further out. -/
lemma trace_loop_away : ∀ (fuel : ℕ) (z : ℝ), 3 ≤ z →
    sphere_trace_loop (make_vec3f 0 0 1) fuel (make_vec3f 0 0 z) = none := by
  intro fuel
  induction fuel with
  | zero => intro z _; rfl
  | succ n ih =>
      intro z hz
      rw [sphere_trace_loop_succ]
      have hfbm := fbm_mem (vec3f_scale (make_vec3f 0 0 z) 3.4)
      have hnorm : vec3f_norm (make_vec3f 0 0 z) = z := by
        rw [vec3f_norm_mk]
        have h0 : (0 : ℝ) * 0 + 0 * 0 + z * z = z * z := by ring
        rw [h0, Real.sqrt_mul_self (by linarith)]
      have hsd : 0 ≤ signed_distance (make_vec3f 0 0 z) := by
        unfold signed_distance
        rw [hnorm]
        unfold sphere_radius noise_amplitude
        nlinarith [hfbm.1, hfbm.2]
      rw [if_neg (not_lt.mpr hsd)]
      have hstep : trace_step (make_vec3f 0 0 1) (make_vec3f 0 0 z)
          = make_vec3f 0 0 (z + max (signed_distance (make_vec3f 0 0 z) * 0.1) 0.01) := by
        unfold trace_step
        ext <;> simp [vec3f_add, vec3f_scale, make_vec3f]
      rw [hstep]
      apply ih
      have hd : (0.01 : ℝ) ≤ max (signed_distance (make_vec3f 0 0 z) * 0.1) 0.01 :=
        le_max_right _ _
      linarith

/-- The ray cast from (0,0,3) away from the object, along (0,0,1),
exhausts its budget and reports no hit. -/
lemma sphere_trace_away_none :
    sphere_trace (make_vec3f 0 0 3) (make_vec3f 0 0 1) = none :=
  trace_loop_away 128 3 (le_refl 3)

/-- C10: whenever sphere_trace returns a hit position p, that position lies
on the traced ray, p = orig + t * dir for some t greater or equal 0 (the
sum of the step sizes taken, zero when the origin is already inside), and
the signed distance at the returned position is strictly negative. -/
theorem sphere_trace_hit_on_ray (orig dir p : Vec3f)
    (h : sphere_trace orig dir = some p) :
    ∃ t : ℝ, 0 ≤ t ∧ p = vec3f_add orig (vec3f_scale dir t) ∧
      signed_distance p < 0 :=
  sphere_trace_loop_ray dir 128 orig p h

lemma sphere_trace_origin_hit :
    sphere_trace (make_vec3f 0 0 0) (make_vec3f 0 0 1) = some (make_vec3f 0 0 0) := by
  unfold sphere_trace
  rw [show (128 : ℕ) = 127 + 1 from rfl, sphere_trace_loop_succ,
    if_pos (by rw [signed_distance_origin_eq]; norm_num)]

/-- Witness for C10: the trace started at the origin (which is inside the
displaced sphere) along (0,0,1) returns the origin itself, which lies on
the ray with parameter 0 and has negative field value. -/
theorem sphere_trace_hit_on_ray_witness :
    ∃ t : ℝ, 0 ≤ t ∧
      make_vec3f 0 0 0 = vec3f_add (make_vec3f 0 0 0) (vec3f_scale (make_vec3f 0 0 1) t) ∧
      signed_distance (make_vec3f 0 0 0) < 0 :=
  sphere_trace_hit_on_ray (make_vec3f 0 0 0) (make_vec3f 0 0 1) (make_vec3f 0 0 0)
    sphere_trace_origin_hit

/-! Section: Value noise against the spec wording -/

/-- C4: the source noise function agrees pointwise with the spec wording:
shared scalar weight w = dot(f, (3,3,3) - 2 f) applied to all three axes,
lattice index n = dot(floor x, (1,57,113)), nested clamped-lerp trilinear
interpolation of hash(n + c) over the corner offsets
0, 1, 57, 58, 113, 114, 170, 171. -/
theorem noise_matches_spec : ∀ x : Vec3f, noise x = noise_spec x := fun _ => rfl

/-! Section: The render entry point performs no validation -/

/-- Evidence for C2: at width = 0 (an invalid parameter per the spec) the
render boundary performs no validation and no failure of any kind: it
just returns the empty pixel buffer. The embedding of the entry point is
a total function with no error outcome. -/
theorem render_zero_width_returns_empty : ∀ fov : ℝ, render 0 5 fov = [] := by
  intro fov
  rfl

/-! Section: Determinism of the pipeline -/

/-- C5: rendering with equal width, height and fov yields identical pixel
buffers; the pipeline is a deterministic function of its arguments with no
hidden state (the parallel per-pixel loop of the source writes each cell
exactly once, so it computes this same function). -/
theorem render_deterministic (w h w' h' : ℤ) (fov fov' : ℝ)
    (hw : w = w') (hh : h = h') (hf : fov = fov') :
    render w h fov = render w' h' fov' := by
  subst hw
  subst hh
  subst hf
  rfl

/-- Witness for C5 at concrete parameters. -/
theorem render_deterministic_witness : render 640 480 1 = render 640 480 1 :=
  render_deterministic 640 480 640 480 1 1 rfl rfl rfl

/-! Section: The pixel encoder -/

lemma toByte_le (r : ℝ) : toByte r ≤ 255 := by
  unfold toByte
  rw [Int.toNat_le]
  have h1 : max 0 (min 255 (r * 255)) ≤ (255 : ℝ) :=
    max_le (by norm_num) (min_le_left _ _)
  have h2 : (⌊(255 : ℝ)⌋ : ℤ) = 255 := by norm_num
  calc ⌊max 0 (min 255 (r * 255))⌋ ≤ ⌊(255 : ℝ)⌋ := Int.floor_le_floor h1
    _ = 255 := h2
    _ ≤ (255 : ℤ) := le_refl _

lemma pixels_spec_length (fb : List Vec3f) : (pixels_spec fb).length = fb.length * 3 := by
  induction fb with
  | nil => rfl
  | cons a tl ih =>
      unfold pixels_spec at ih ⊢
      rw [List.flatMap_cons, List.length_append, ih, List.length_cons]
      simp only [List.length_cons, List.length_nil]
      omega

lemma pixels_spec_le (fb : List Vec3f) : ∀ b ∈ pixels_spec fb, b ≤ 255 := by
  intro b hb
  rw [pixels_spec, List.mem_flatMap] at hb
  obtain ⟨c, _, hc⟩ := hb
  simp only [List.mem_cons, List.not_mem_nil, or_false] at hc
  rcases hc with h | h | h <;> rw [h] <;> exact toByte_le _

lemma flatMap_eq_range_getD {β : Type} (d0 : Vec3f) (F : Vec3f → List β) :
    ∀ l : List Vec3f,
      l.flatMap F = (List.range l.length).flatMap (fun k => F (l.getD k d0)) := by
  intro l
  induction l with
  | nil => simp
  | cons a tl ih =>
      rw [List.flatMap_cons, List.length_cons, List.range_succ_eq_map,
        List.flatMap_cons, List.getD_cons_zero, List.flatMap_map]
      congr 1

lemma range_flatMap_blocks {β : Type} (d0 : Vec3f) (F : Vec3f → List β) :
    ∀ (h w : ℕ) (fb : List Vec3f), fb.length = w * h →
      (List.range h).flatMap (fun j =>
        (List.range w).flatMap (fun i => F (fb.getD (i + j * w) d0)))
        = fb.flatMap F := by
  intro h
  induction h with
  | zero =>
      intro w fb hl
      have hnil : fb = [] := List.eq_nil_of_length_eq_zero (by simpa using hl)
      subst hnil
      simp
  | succ k ih =>
      intro w fb hl
      rw [List.range_succ_eq_map, List.flatMap_cons, List.flatMap_map]
      have hwle : w ≤ fb.length := by
        rw [hl]
        calc w = w * 1 := (mul_one w).symm
          _ ≤ w * (k + 1) := Nat.mul_le_mul_left w (by omega)
      have hblock0 : (List.range w).flatMap (fun i => F (fb.getD (i + 0 * w) d0))
          = (fb.take w).flatMap F := by
        rw [flatMap_eq_range_getD d0 F (fb.take w), List.length_take,
          min_eq_left hwle]
        apply List.flatMap_congr
        intro i hi
        rw [List.mem_range] at hi
        congr 1
        rw [Nat.zero_mul, Nat.add_zero, List.getD_eq_getElem?_getD,
          List.getD_eq_getElem?_getD, List.getElem?_take, if_pos hi]
      have hrest : (List.range k).flatMap (fun j =>
            (List.range w).flatMap (fun i => F (fb.getD (i + Nat.succ j * w) d0)))
          = (fb.drop w).flatMap F := by
        rw [← ih w (fb.drop w) (by rw [List.length_drop, hl]; ring_nf; omega)]
        apply List.flatMap_congr
        intro j _
        apply List.flatMap_congr
        intro i _
        congr 1
        rw [List.getD_eq_getElem?_getD ((fb.drop w)), List.getElem?_drop,
          ← List.getD_eq_getElem?_getD]
        congr 1
        rw [Nat.succ_mul]
        omega
      rw [hblock0, hrest, ← List.flatMap_append, List.take_append_drop]

lemma convert_eq_pixels_spec (w h : ℕ) (fb : List Vec3f) (hl : fb.length = w * h) :
    convert_framebuffer_to_pixels fb w h = pixels_spec fb := by
  unfold convert_framebuffer_to_pixels pixels_spec
  simp only [Int.toNat_natCast]
  exact range_flatMap_blocks (make_vec3f 0 0 0)
    (fun color => [toByte color.x, toByte color.y, toByte color.z]) h w fb hl

/-- C6: on a framebuffer of width * height entries the pixel encoder
produces exactly width * height * 3 bytes, each in [0, 255], equal to the
row-major per-pixel R, G, B encoding described by the spec (scale by 255,
clamp, truncate), and it is a pure function of the input colors. -/
theorem convert_framebuffer_spec (w h : ℕ) (fb : List Vec3f)
    (hl : fb.length = w * h) :
    (convert_framebuffer_to_pixels fb w h).length = w * h * 3 ∧
    (∀ b ∈ convert_framebuffer_to_pixels fb w h, b ≤ 255) ∧
    convert_framebuffer_to_pixels fb w h = pixels_spec fb := by
  have heq := convert_eq_pixels_spec w h fb hl
  refine ⟨?_, ?_, heq⟩
  · rw [heq, pixels_spec_length, hl]
  · rw [heq]
    exact pixels_spec_le fb

/-- Witness for C6 on a one-pixel framebuffer. -/
theorem convert_framebuffer_spec_witness :
    (convert_framebuffer_to_pixels [make_vec3f 0 0 0] 1 1).length = 1 * 1 * 3 ∧
    (∀ b ∈ convert_framebuffer_to_pixels [make_vec3f 0 0 0] 1 1, b ≤ 255) ∧
    convert_framebuffer_to_pixels [make_vec3f 0 0 0] 1 1 = pixels_spec [make_vec3f 0 0 0] :=
  convert_framebuffer_spec 1 1 [make_vec3f 0 0 0] (by simp)

end SDF
